import Mathlib

/-!
Verification of the Lorentz (hyperboloid) manifold math layer of geoopt.

The per-manifold math module geoopt.manifolds.lorentz.math is not among the
provided sources (only its package declaration and its test suite are), so
every operation below is modelled from the specification over exact real
arithmetic: a point of the hyperboloid of parameter k > 0 in ambient
dimension n + 1 is a pair of a time coordinate and an n-dimensional spatial
part, the metric is the Minkowski bilinear form, and each map is the
closed-form formula the specification describes (geodesic exponential and
logarithmic maps, unit-speed geodesics, Levi-Civita parallel transport,
distances, tangent projection, Poincare model conversions, and the
origin-anchored specializations).  Floating-point tolerance statements of
the specification become exact equalities over the reals.
-/

namespace LorentzMath

noncomputable section

/-- Modelled from the spec: ambient representation of points and tangent
vectors of the Lorentz model, split as (time coordinate, spatial part),
mirroring the narrow(dim, 0, 1) / narrow(dim, 1, d) split used by the
missing math module geoopt.manifolds.lorentz.math. -/
abbrev Pt (n : ℕ) : Type := ℝ × (Fin n → ℝ)

/-- Euclidean dot product of the spatial parts. -/
def sdot {n : ℕ} (u v : Fin n → ℝ) : ℝ := ∑ i, u i * v i

/-- Modelled from the spec: the Minkowski bilinear form used as the
Riemannian metric of the Lorentz model (the inner function of the missing
module geoopt.manifolds.lorentz.math); the base point is irrelevant. -/
def linner {n : ℕ} (u v : Pt n) : ℝ := -(u.1 * v.1) + sdot u.2 v.2

/-- Modelled from the spec: Minkowski norm of a (spacelike) tangent
vector, the norm function of the missing module. -/
def lnorm {n : ℕ} (u : Pt n) : ℝ := Real.sqrt (linner u u)

/-- Inverse hyperbolic cosine, one of the stabilized transcendental
helpers of the numeric kernel (section 4.1 of the spec). -/
def arcosh (x : ℝ) : ℝ := Real.log (x + Real.sqrt (x ^ 2 - 1))

/-- Modelled from the spec: the on-manifold invariant of the hyperboloid,
in the curvature-scaled form fixed by the test suite (whose canonical
origin has time coordinate sqrt k): constant Lorentz self-inner product
and conventionally signed time coordinate. -/
def onManifold {n : ℕ} (x : Pt n) (k : ℝ) : Prop := linner x x = -k ∧ 0 < x.1

theorem sdot_comm {n : ℕ} (u v : Fin n → ℝ) : sdot u v = sdot v u :=
  Finset.sum_congr rfl fun i _ => mul_comm _ _

theorem sdot_add_right {n : ℕ} (u v w : Fin n → ℝ) :
    sdot u (v + w) = sdot u v + sdot u w := by
  unfold sdot
  rw [← Finset.sum_add_distrib]
  exact Finset.sum_congr rfl fun i _ => by simp [mul_add]

theorem sdot_smul_right {n : ℕ} (c : ℝ) (u v : Fin n → ℝ) :
    sdot u (c • v) = c * sdot u v := by
  unfold sdot
  rw [Finset.mul_sum]
  exact Finset.sum_congr rfl fun i _ => by simp [smul_eq_mul]; ring

theorem sdot_zero_right {n : ℕ} (u : Fin n → ℝ) : sdot u 0 = 0 := by
  unfold sdot
  simp

theorem sdot_zero_left {n : ℕ} (u : Fin n → ℝ) : sdot 0 u = 0 := by
  rw [sdot_comm, sdot_zero_right]

theorem sdot_nonneg {n : ℕ} (u : Fin n → ℝ) : 0 ≤ sdot u u :=
  Finset.sum_nonneg fun i _ => mul_self_nonneg _

theorem sdot_self_eq_zero {n : ℕ} {u : Fin n → ℝ} (h : sdot u u = 0) : u = 0 := by
  funext i
  have hi : ∀ j ∈ Finset.univ, (0 : ℝ) ≤ u j * u j := fun j _ => mul_self_nonneg _
  have hz := (Finset.sum_eq_zero_iff_of_nonneg hi).mp h i (Finset.mem_univ i)
  simpa [mul_self_eq_zero] using hz

/-- Cauchy-Schwarz for the spatial dot product. -/
theorem sdot_le_sqrt_mul_sqrt {n : ℕ} (u v : Fin n → ℝ) :
    sdot u v ≤ Real.sqrt (sdot u u) * Real.sqrt (sdot v v) := by
  have h := Real.sum_mul_le_sqrt_mul_sqrt (Finset.univ : Finset (Fin n)) u v
  simpa [sdot, sq] using h

/-- Squared Cauchy-Schwarz for the spatial dot product. -/
theorem sdot_sq_le {n : ℕ} (u v : Fin n → ℝ) :
    sdot u v ^ 2 ≤ sdot u u * sdot v v := by
  have h := Finset.sum_mul_sq_le_sq_mul_sq (Finset.univ : Finset (Fin n)) u v
  simpa [sdot, sq] using h

theorem linner_comm {n : ℕ} (u v : Pt n) : linner u v = linner v u := by
  unfold linner
  rw [sdot_comm, mul_comm]

theorem linner_add_right {n : ℕ} (x u v : Pt n) :
    linner x (u + v) = linner x u + linner x v := by
  unfold linner
  rw [Prod.fst_add, Prod.snd_add, sdot_add_right]
  ring

theorem linner_smul_right {n : ℕ} (c : ℝ) (x v : Pt n) :
    linner x (c • v) = c * linner x v := by
  unfold linner
  rw [Prod.smul_fst, Prod.smul_snd, sdot_smul_right, smul_eq_mul]
  ring

theorem linner_add_left {n : ℕ} (u v x : Pt n) :
    linner (u + v) x = linner u x + linner v x := by
  rw [linner_comm, linner_add_right, linner_comm x u, linner_comm x v]

theorem linner_smul_left {n : ℕ} (c : ℝ) (v x : Pt n) :
    linner (c • v) x = c * linner v x := by
  rw [linner_comm, linner_smul_right, linner_comm x v]

theorem linner_zero_right {n : ℕ} (x : Pt n) : linner x 0 = 0 := by
  unfold linner
  simp [sdot_zero_right]

theorem linner_zero_left {n : ℕ} (x : Pt n) : linner 0 x = 0 := by
  rw [linner_comm, linner_zero_right]

theorem lnorm_zero {n : ℕ} : lnorm (0 : Pt n) = 0 := by
  unfold lnorm
  rw [linner_zero_right, Real.sqrt_zero]

theorem arcosh_one : arcosh 1 = 0 := by
  unfold arcosh
  norm_num

theorem arcosh_nonneg {x : ℝ} (hx : 1 ≤ x) : 0 ≤ arcosh x := by
  unfold arcosh
  apply Real.log_nonneg
  have h := Real.sqrt_nonneg (x ^ 2 - 1)
  linarith

theorem arcosh_pos {x : ℝ} (hx : 1 < x) : 0 < arcosh x := by
  unfold arcosh
  apply Real.log_pos
  have h := Real.sqrt_nonneg (x ^ 2 - 1)
  linarith

theorem cosh_arcosh {x : ℝ} (hx : 1 ≤ x) : Real.cosh (arcosh x) = x := by
  have hs : Real.sqrt (x ^ 2 - 1) ^ 2 = x ^ 2 - 1 := Real.sq_sqrt (by nlinarith)
  have hsn : 0 ≤ Real.sqrt (x ^ 2 - 1) := Real.sqrt_nonneg _
  have ht : 0 < x + Real.sqrt (x ^ 2 - 1) := by linarith
  have hinv : x - Real.sqrt (x ^ 2 - 1) = (x + Real.sqrt (x ^ 2 - 1))⁻¹ := by
    apply eq_inv_of_mul_eq_one_left
    nlinarith [hs]
  unfold arcosh
  rw [Real.cosh_log ht, ← hinv]
  ring

theorem sinh_arcosh {x : ℝ} (hx : 1 ≤ x) :
    Real.sinh (arcosh x) = Real.sqrt (x ^ 2 - 1) := by
  have hs : Real.sqrt (x ^ 2 - 1) ^ 2 = x ^ 2 - 1 := Real.sq_sqrt (by nlinarith)
  have hsn : 0 ≤ Real.sqrt (x ^ 2 - 1) := Real.sqrt_nonneg _
  have ht : 0 < x + Real.sqrt (x ^ 2 - 1) := by linarith
  have hinv : x - Real.sqrt (x ^ 2 - 1) = (x + Real.sqrt (x ^ 2 - 1))⁻¹ := by
    apply eq_inv_of_mul_eq_one_left
    nlinarith [hs]
  unfold arcosh
  rw [Real.sinh_log ht, ← hinv]
  ring

theorem arcosh_cosh {t : ℝ} (ht : 0 ≤ t) : arcosh (Real.cosh t) = t := by
  unfold arcosh
  have h1 : Real.cosh t ^ 2 - 1 = Real.sinh t ^ 2 := by
    have h := Real.cosh_sq_sub_sinh_sq t
    linarith
  rw [h1, Real.sqrt_sq (Real.sinh_nonneg_iff.mpr ht), Real.cosh_add_sinh,
    Real.log_exp]

/-- Modelled from the spec: the project function (projx) of the missing
module geoopt.manifolds.lorentz.math, recomputing the time coordinate from
the spatial components given k. -/
def project {n : ℕ} (x : Pt n) (k : ℝ) : Pt n :=
  (Real.sqrt (k + sdot x.2 x.2), x.2)

/-- Modelled from the spec: the proju function of the missing module,
projecting an ambient vector onto the tangent space at x by removing its
component along the Minkowski normal direction x. -/
def proju {n : ℕ} (x v : Pt n) (k : ℝ) : Pt n := v + (linner x v / k) • x

/-- Modelled from the spec: geodesic distance of the missing module,
derived from the inverse hyperbolic cosine of the curvature-scaled inner
product. -/
def dist {n : ℕ} (x y : Pt n) (k : ℝ) : ℝ :=
  Real.sqrt k * arcosh (-(linner x y) / k)

/-- Modelled from the spec: the exponential map of the missing module,
following the geodesic from x of length equal to the Minkowski norm of v,
equivalent to the flag project=False variant. -/
def expmap {n : ℕ} (x v : Pt n) (k : ℝ) : Pt n :=
  Real.cosh (lnorm v / Real.sqrt k) • x +
    (Real.sqrt k * Real.sinh (lnorm v / Real.sqrt k) / lnorm v) • v

/-- Modelled from the spec: the logarithmic map of the missing module,
recovering the tangent vector at x pointing to y with norm dist x y. -/
def logmap {n : ℕ} (x y : Pt n) (k : ℝ) : Pt n :=
  (dist x y k / lnorm (y + (linner x y / k) • x)) • (y + (linner x y / k) • x)

/-- Modelled from the spec: the unit-speed geodesic of the missing module
through x with initial direction u, evaluated at arc-length parameter t. -/
def geodesic_unit {n : ℕ} (t : ℝ) (x u : Pt n) (k : ℝ) : Pt n :=
  Real.cosh (t / Real.sqrt k) • x +
    (Real.sqrt k * Real.sinh (t / Real.sqrt k)) • u

/-- Modelled from the spec: Levi-Civita parallel transport of the missing
module, moving tangent vector v from base x to base y. -/
def transp {n : ℕ} (x y v : Pt n) (k : ℝ) : Pt n :=
  v + (linner y v / (k - linner x y)) • (x + y)

/-- Modelled from the spec: the canonical origin (hyperboloid apex) used
by the test suite, with time coordinate sqrt k and zero spatial part. -/
def origin (n : ℕ) (k : ℝ) : Pt n := (Real.sqrt k, 0)

/-- Modelled from the spec: the exponential map specialized at the
canonical origin, written as its own cheaper closed form. -/
def expmap0 {n : ℕ} (u : Pt n) (k : ℝ) : Pt n :=
  (Real.sqrt k * Real.cosh (lnorm u / Real.sqrt k) +
      Real.sqrt k * Real.sinh (lnorm u / Real.sqrt k) / lnorm u * u.1,
    (Real.sqrt k * Real.sinh (lnorm u / Real.sqrt k) / lnorm u) • u.2)

/-- Modelled from the spec: the logarithmic map specialized at the
canonical origin, written as its own cheaper closed form. -/
def logmap0 {n : ℕ} (y : Pt n) (k : ℝ) : Pt n :=
  (0, (Real.sqrt k * arcosh (y.1 / Real.sqrt k) / Real.sqrt (sdot y.2 y.2)) • y.2)

/-- Modelled from the spec: geodesic distance from the canonical origin,
written as its own cheaper closed form. -/
def dist0 {n : ℕ} (y : Pt n) (k : ℝ) : ℝ :=
  Real.sqrt k * arcosh (y.1 / Real.sqrt k)

/-- Modelled from the spec: parallel transport from the canonical origin
to y, written as its own cheaper closed form. -/
def transp0 {n : ℕ} (y v : Pt n) (k : ℝ) : Pt n :=
  v + (linner y v / (k + Real.sqrt k * y.1)) • ((Real.sqrt k + y.1, y.2) : Pt n)

/-- Modelled from the spec: parallel transport from x back to the
canonical origin, written as its own cheaper closed form. -/
def transp0back {n : ℕ} (x v : Pt n) (k : ℝ) : Pt n :=
  v - (Real.sqrt k * v.1 / (k + Real.sqrt k * x.1)) •
    ((x.1 + Real.sqrt k, x.2) : Pt n)

/-- Modelled from the spec: the origin-anchored inner product of the
missing module, pairing its single argument with the origin point. -/
def inner0 {n : ℕ} (v : Pt n) (k : ℝ) : ℝ := -(Real.sqrt k * v.1)

/-- Modelled from the spec: the logarithmic map from x back to the
canonical origin, written as its own cheaper closed form. -/
def logmap0back {n : ℕ} (x : Pt n) (k : ℝ) : Pt n :=
  (dist0 x k /
      lnorm ((Real.sqrt k - x.1 * x.1 / Real.sqrt k,
        -(x.1 / Real.sqrt k) • x.2) : Pt n)) •
    ((Real.sqrt k - x.1 * x.1 / Real.sqrt k, -(x.1 / Real.sqrt k) • x.2) : Pt n)

/-- Modelled from the spec: chart conversion from the Lorentz model to the
Poincare ball at fixed curvature, a stereographic projection. -/
def lorentz_to_poincare {n : ℕ} (x : Pt n) (k : ℝ) : Fin n → ℝ :=
  (Real.sqrt k / (x.1 + Real.sqrt k)) • x.2

/-- Modelled from the spec: chart conversion from the Poincare ball back
to the Lorentz model at fixed curvature. -/
def poincare_to_lorentz {n : ℕ} (p : Fin n → ℝ) (k : ℝ) : Pt n :=
  (Real.sqrt k * (k + sdot p p) / (k - sdot p p), (2 * k / (k - sdot p p)) • p)

theorem onManifold_time_sq {n : ℕ} {x : Pt n} {k : ℝ} (hx : onManifold x k) :
    x.1 ^ 2 = k + sdot x.2 x.2 := by
  have h := hx.1
  unfold linner at h
  have hsq : x.1 ^ 2 = x.1 * x.1 := pow_two x.1
  linarith

theorem onManifold_time_ge {n : ℕ} {x : Pt n} {k : ℝ} (hk : 0 < k)
    (hx : onManifold x k) : Real.sqrt k ≤ x.1 := by
  have hsq := onManifold_time_sq hx
  have hA := sdot_nonneg x.2
  have h1 : Real.sqrt k ^ 2 = k := Real.sq_sqrt hk.le
  nlinarith [hx.2, Real.sqrt_nonneg k]

/-- Reverse Cauchy-Schwarz on the upper hyperboloid: the Minkowski inner
product of two on-manifold points is at most -k. -/
theorem reverse_cs {n : ℕ} {x y : Pt n} {k : ℝ} (hk : 0 < k)
    (hx : onManifold x k) (hy : onManifold y k) : k ≤ -(linner x y) := by
  have hA0 : 0 ≤ sdot x.2 x.2 := sdot_nonneg _
  have hB0 : 0 ≤ sdot y.2 y.2 := sdot_nonneg _
  have hxs : x.1 ^ 2 = k + sdot x.2 x.2 := onManifold_time_sq hx
  have hys : y.1 ^ 2 = k + sdot y.2 y.2 := onManifold_time_sq hy
  have hcs : sdot x.2 y.2 ≤ Real.sqrt (sdot x.2 x.2) * Real.sqrt (sdot y.2 y.2) :=
    sdot_le_sqrt_mul_sqrt _ _
  have hsa : Real.sqrt (sdot x.2 x.2) ^ 2 = sdot x.2 x.2 := Real.sq_sqrt hA0
  have hsb : Real.sqrt (sdot y.2 y.2) ^ 2 = sdot y.2 y.2 := Real.sq_sqrt hB0
  have hP : 0 < x.1 * y.1 := mul_pos hx.2 hy.2
  have hQ : 0 ≤ k + Real.sqrt (sdot x.2 x.2) * Real.sqrt (sdot y.2 y.2) := by
    have h1 := Real.sqrt_nonneg (sdot x.2 x.2)
    have h2 := Real.sqrt_nonneg (sdot y.2 y.2)
    nlinarith [hk.le]
  have hsqle : (k + Real.sqrt (sdot x.2 x.2) * Real.sqrt (sdot y.2 y.2)) ^ 2 ≤
      (x.1 * y.1) ^ 2 := by
    have expand : (x.1 * y.1) ^ 2 = (k + sdot x.2 x.2) * (k + sdot y.2 y.2) := by
      rw [mul_pow, hxs, hys]
    rw [expand]
    nlinarith [sq_nonneg (Real.sqrt (sdot x.2 x.2) - Real.sqrt (sdot y.2 y.2)),
      hk.le, hsa, hsb]
  have hxy : k + Real.sqrt (sdot x.2 x.2) * Real.sqrt (sdot y.2 y.2) ≤ x.1 * y.1 := by
    have h2 := Real.sqrt_le_sqrt hsqle
    rwa [Real.sqrt_sq hQ, Real.sqrt_sq hP.le] at h2
  unfold linner
  linarith

/-- Tangent vectors at an on-manifold point are spacelike, and only the
zero vector is null. -/
theorem tangent_spacelike {n : ℕ} {x v : Pt n} {k : ℝ} (hk : 0 < k)
    (hx : onManifold x k) (hv : linner x v = 0) :
    0 ≤ linner v v ∧ (linner v v = 0 → v = 0) := by
  have hxs : x.1 ^ 2 = k + sdot x.2 x.2 := onManifold_time_sq hx
  have hA0 : 0 ≤ sdot x.2 x.2 := sdot_nonneg _
  have hV0 : 0 ≤ sdot v.2 v.2 := sdot_nonneg _
  have hT : x.1 * v.1 = sdot x.2 v.2 := by
    unfold linner at hv
    linarith
  have hcs : sdot x.2 v.2 ^ 2 ≤ sdot x.2 x.2 * sdot v.2 v.2 := sdot_sq_le _ _
  have hx1 : 0 < x.1 := hx.2
  have hq : (x.1 * v.1) ^ 2 = v.1 ^ 2 * (k + sdot x.2 x.2) := by
    rw [← hxs]
    ring
  have hkey : v.1 ^ 2 * (k + sdot x.2 x.2) ≤ sdot x.2 x.2 * sdot v.2 v.2 := by
    rw [← hq, hT]
    exact hcs
  constructor
  · unfold linner
    rw [← pow_two]
    nlinarith [hkey, hV0, hA0, hk]
  · intro hzero
    unfold linner at hzero
    rw [← pow_two] at hzero
    have hV : sdot v.2 v.2 = 0 := by
      have h1 : sdot v.2 v.2 ≤ 0 := by nlinarith [hkey, hk, hV0]
      exact le_antisymm h1 hV0
    have hvs : v.2 = 0 := sdot_self_eq_zero hV
    have hv1 : v.1 = 0 := by
      have hxv : sdot x.2 v.2 = 0 := by rw [hvs, sdot_zero_right]
      rw [hxv] at hT
      exact (mul_eq_zero.mp hT).resolve_left (ne_of_gt hx1)
    have hv2 : v = (v.1, v.2) := rfl
    rw [hv2, hv1, hvs]
    rfl

/-- The denominator of the parallel transport formula is positive on the
upper hyperboloid. -/
theorem transp_denom_pos {n : ℕ} {x y : Pt n} {k : ℝ} (hk : 0 < k)
    (hx : onManifold x k) (hy : onManifold y k) : 0 < k - linner x y := by
  have h := reverse_cs hk hx hy
  linarith

theorem origin_onManifold {n : ℕ} {k : ℝ} (hk : 0 < k) :
    onManifold (origin n k) k := by
  constructor
  · unfold origin linner
    simp [sdot_zero_right, Real.mul_self_sqrt hk.le]
  · exact Real.sqrt_pos.mpr hk

theorem lnorm_nonneg {n : ℕ} (u : Pt n) : 0 ≤ lnorm u := Real.sqrt_nonneg _

theorem lnorm_eq_sqrt {n : ℕ} (u : Pt n) : lnorm u = Real.sqrt (linner u u) := rfl

theorem lnorm_mul_self {n : ℕ} {u : Pt n} (h : 0 ≤ linner u u) :
    lnorm u * lnorm u = linner u u := Real.mul_self_sqrt h

theorem expmap_zero {n : ℕ} (x : Pt n) (k : ℝ) : expmap x 0 k = x := by
  unfold expmap
  rw [lnorm_zero]
  simp [Real.cosh_zero]

theorem logmap_self {n : ℕ} {x : Pt n} {k : ℝ} (hk : k ≠ 0)
    (hx : linner x x = -k) : logmap x x k = 0 := by
  unfold logmap
  have hw : x + (linner x x / k) • x = 0 := by
    rw [hx, neg_div, div_self hk, neg_smul, one_smul, add_neg_cancel]
  rw [hw]
  simp

/-- Round trip: the exponential map applied to the logarithm of y at x
returns y, for any two points of the upper hyperboloid. -/
theorem expmap_logmap {n : ℕ} {x y : Pt n} {k : ℝ} (hk : 0 < k)
    (hx : onManifold x k) (hy : onManifold y k) :
    expmap x (logmap x y k) k = y := by
  have hkne : k ≠ 0 := ne_of_gt hk
  have hs0 : 0 < Real.sqrt k := Real.sqrt_pos.mpr hk
  have hrc := reverse_cs hk hx hy
  set α := -(linner x y) / k with hα
  have hα1 : 1 ≤ α := by
    rw [hα, le_div_iff hk]
    linarith
  have hxyval : linner x y = -(α * k) := by
    rw [hα]
    field_simp
  set w := y + (linner x y / k) • x with hw
  have hxw : linner x w = 0 := by
    rw [hw, linner_add_right, linner_smul_right, hx.1]
    field_simp
  have hww : linner w w = k * (α ^ 2 - 1) := by
    rw [hw]
    simp only [linner_add_left, linner_add_right, linner_smul_left,
      linner_smul_right]
    rw [linner_comm y x, hx.1, hy.1, hxyval]
    field_simp
    ring
  rcases eq_or_lt_of_le hα1 with heq | hlt
  · rw [← heq] at hww
    norm_num at hww
    have hw0 : w = 0 := (tangent_spacelike hk hx hxw).2 hww
    have hxy1 : linner x y / k = -1 := by
      rw [hxyval, ← heq]
      field_simp
    have h0 : y + (-1 : ℝ) • x = 0 := by
      rw [← hxy1, ← hw]
      exact hw0
    have hyx : y = x := by
      rw [neg_one_smul] at h0
      have h1 : y - x = 0 := by
        rw [sub_eq_add_neg]
        exact h0
      exact sub_eq_zero.mp h1
    rw [hyx, logmap_self hkne hx.1, expmap_zero]
  · have hb : 0 < α ^ 2 - 1 := by nlinarith
    have hsb : 0 < Real.sqrt (α ^ 2 - 1) := Real.sqrt_pos.mpr hb
    have harc : 0 < arcosh α := arcosh_pos hlt
    have hlwn : lnorm w = Real.sqrt k * Real.sqrt (α ^ 2 - 1) := by
      unfold lnorm
      rw [hww, Real.sqrt_mul hk.le]
    have hvdef : logmap x y k = (arcosh α / Real.sqrt (α ^ 2 - 1)) • w := by
      unfold logmap dist
      rw [← hα, ← hw, hlwn]
      congr 1
      rw [mul_div_mul_left _ _ (ne_of_gt hs0)]
    have hvv : linner (logmap x y k) (logmap x y k) = k * arcosh α ^ 2 := by
      rw [hvdef, linner_smul_left, linner_smul_right, hww]
      set s := Real.sqrt (α ^ 2 - 1) with hsdef
      have hs2 : s * s = α ^ 2 - 1 := Real.mul_self_sqrt hb.le
      rw [← hs2]
      field_simp
      ring
    have hlv : lnorm (logmap x y k) = Real.sqrt k * arcosh α := by
      unfold lnorm
      rw [hvv, Real.sqrt_mul hk.le, Real.sqrt_sq harc.le]
    unfold expmap
    rw [hlv]
    have hdiv : Real.sqrt k * arcosh α / Real.sqrt k = arcosh α := by
      field_simp
    rw [hdiv, cosh_arcosh hα1, sinh_arcosh hα1, hvdef, smul_smul]
    have hcoef : Real.sqrt k * Real.sqrt (α ^ 2 - 1) /
        (Real.sqrt k * arcosh α) * (arcosh α / Real.sqrt (α ^ 2 - 1)) = 1 := by
      field_simp
      ring
    rw [hcoef, one_smul, hw, hxyval]
    have hdiv2 : -(α * k) / k = -α := by field_simp
    rw [hdiv2, neg_smul]
    abel

/-- Round trip: the logarithm at x of the exponential of a tangent vector
v returns v. -/
theorem logmap_expmap {n : ℕ} {x v : Pt n} {k : ℝ} (hk : 0 < k)
    (hx : onManifold x k) (hv : linner x v = 0) :
    logmap x (expmap x v k) k = v := by
  have hkne : k ≠ 0 := ne_of_gt hk
  have hs0 : 0 < Real.sqrt k := Real.sqrt_pos.mpr hk
  rcases eq_or_ne v 0 with hv0 | hv0
  · rw [hv0, expmap_zero, logmap_self hkne hx.1]
  · obtain ⟨hvv0, hvnz⟩ := tangent_spacelike hk hx hv
    have hP : 0 < linner v v := by
      rcases lt_or_eq_of_le hvv0 with h | h
      · exact h
      · exact absurd (hvnz h.symm) hv0
    have hr : 0 < lnorm v := Real.sqrt_pos.mpr hP
    have hr2 : lnorm v * lnorm v = linner v v := lnorm_mul_self hvv0
    have hrne : lnorm v ≠ 0 := ne_of_gt hr
    have hss : Real.sqrt k * Real.sqrt k = k := Real.mul_self_sqrt hk.le
    have hcpos : 0 < lnorm v / Real.sqrt k := div_pos hr hs0
    have hSpos : 0 < Real.sinh (lnorm v / Real.sqrt k) :=
      Real.sinh_pos_iff.mpr hcpos
    have hxy : linner x (expmap x v k) =
        -(k * Real.cosh (lnorm v / Real.sqrt k)) := by
      unfold expmap
      rw [linner_add_right, linner_smul_right, linner_smul_right, hx.1, hv]
      ring
    have hα : -(linner x (expmap x v k)) / k =
        Real.cosh (lnorm v / Real.sqrt k) := by
      rw [hxy, neg_neg, mul_comm, mul_div_assoc, div_self hkne, mul_one]
    have hdist : dist x (expmap x v k) k = lnorm v := by
      unfold dist
      rw [hα, arcosh_cosh hcpos.le, mul_comm, div_mul_cancel₀ _ (ne_of_gt hs0)]
    have hwv : expmap x v k + (linner x (expmap x v k) / k) • x =
        (Real.sqrt k * Real.sinh (lnorm v / Real.sqrt k) / lnorm v) • v := by
      rw [hxy]
      have hcc : -(k * Real.cosh (lnorm v / Real.sqrt k)) / k =
          -Real.cosh (lnorm v / Real.sqrt k) := by
        field_simp
        ring
      rw [hcc]
      unfold expmap
      rw [neg_smul]
      abel
    have hww2 : linner
        ((Real.sqrt k * Real.sinh (lnorm v / Real.sqrt k) / lnorm v) • v)
        ((Real.sqrt k * Real.sinh (lnorm v / Real.sqrt k) / lnorm v) • v) =
        Real.sqrt k * Real.sqrt k * Real.sinh (lnorm v / Real.sqrt k) ^ 2 := by
      rw [linner_smul_left, linner_smul_right, ← hr2]
      field_simp
      linear_combination (Real.sinh (lnorm v / Real.sqrt k) ^ 2 *
        (lnorm v * lnorm v)) * hss
    rw [hss] at hww2
    have hlw : lnorm
        ((Real.sqrt k * Real.sinh (lnorm v / Real.sqrt k) / lnorm v) • v) =
        Real.sqrt k * Real.sinh (lnorm v / Real.sqrt k) := by
      rw [lnorm_eq_sqrt, hww2, Real.sqrt_mul hk.le, Real.sqrt_sq hSpos.le]
    unfold logmap
    rw [hwv, hdist, hlw, smul_smul]
    have hcoef : lnorm v / (Real.sqrt k * Real.sinh (lnorm v / Real.sqrt k)) *
        (Real.sqrt k * Real.sinh (lnorm v / Real.sqrt k) / lnorm v) = 1 := by
      field_simp
    rw [hcoef, one_smul]

theorem linner_pair {n : ℕ} (a b : ℝ) (u v : Fin n → ℝ) :
    linner ((a, u) : Pt n) ((b, v) : Pt n) = -(a * b) + sdot u v := rfl

theorem sdot_smul_left {n : ℕ} (c : ℝ) (u v : Fin n → ℝ) :
    sdot (c • u) v = c * sdot u v := by
  rw [sdot_comm, sdot_smul_right, sdot_comm]

theorem linner_origin_left {n : ℕ} (k : ℝ) (y : Pt n) :
    linner (origin n k) y = -(Real.sqrt k * y.1) := by
  unfold origin
  rw [show y = ((y.1, y.2) : Pt n) from rfl, linner_pair, sdot_zero_left]
  ring

theorem linner_origin_right {n : ℕ} (k : ℝ) (x : Pt n) :
    linner x (origin n k) = -(x.1 * Real.sqrt k) := by
  rw [linner_comm, linner_origin_left]
  ring

/-- Parallel transport is a linear isometry of the Minkowski form between
tangent spaces: the core algebraic identity. -/
theorem transp_preserves_inner {n : ℕ} {x y u v : Pt n} {k : ℝ}
    (hxx : linner x x = -k) (hyy : linner y y = -k)
    (hd : k - linner x y ≠ 0) (hu : linner x u = 0) (hv : linner x v = 0) :
    linner (transp x y u k) (transp x y v k) = linner u v := by
  unfold transp
  simp only [linner_add_left, linner_add_right, linner_smul_left,
    linner_smul_right]
  repeat rw [linner_comm u x]
  repeat rw [linner_comm u y]
  repeat rw [linner_comm y x]
  rw [hxx, hyy, hu, hv]
  field_simp
  ring

theorem geodesic_unit_zero {n : ℕ} (x u : Pt n) (k : ℝ) :
    geodesic_unit 0 x u k = x := by
  unfold geodesic_unit
  simp [Real.cosh_zero, Real.sinh_zero]

/-- Unit-speed property: the geodesic parameter measures distance from
the starting point. -/
theorem dist_geodesic_unit {n : ℕ} {x u : Pt n} {k t : ℝ} (hk : 0 < k)
    (hx : onManifold x k) (hu : linner x u = 0) (ht : 0 ≤ t) :
    dist x (geodesic_unit t x u k) k = t := by
  have hs0 : 0 < Real.sqrt k := Real.sqrt_pos.mpr hk
  have hkne : k ≠ 0 := ne_of_gt hk
  have hxy : linner x (geodesic_unit t x u k) =
      -(k * Real.cosh (t / Real.sqrt k)) := by
    unfold geodesic_unit
    rw [linner_add_right, linner_smul_right, linner_smul_right, hx.1, hu]
    ring
  unfold dist
  rw [hxy, neg_neg, mul_comm k, mul_div_assoc, div_self hkne, mul_one,
    arcosh_cosh (div_nonneg ht hs0.le), mul_comm,
    div_mul_cancel₀ _ (ne_of_gt hs0)]

/-- Projection always lands on the upper hyperboloid. -/
theorem project_onManifold {n : ℕ} {k : ℝ} (hk : 0 < k) (a : Pt n) :
    onManifold (project a k) k := by
  have hpos : 0 < k + sdot a.2 a.2 := by
    have h := sdot_nonneg a.2
    linarith
  constructor
  · unfold project
    rw [linner_pair, Real.mul_self_sqrt hpos.le]
    ring
  · exact Real.sqrt_pos.mpr hpos

theorem proju_def {n : ℕ} (x v : Pt n) (k : ℝ) :
    proju x v k = v + (linner x v / k) • x := rfl

/-- The tangent projection lands in the tangent space at x. -/
theorem proju_tangent {n : ℕ} {x : Pt n} {k : ℝ} (hk : k ≠ 0)
    (hx : linner x x = -k) (v : Pt n) : linner x (proju x v k) = 0 := by
  rw [proju_def, linner_add_right, linner_smul_right, hx]
  field_simp

/-- The tangent projection is idempotent. -/
theorem proju_idem {n : ℕ} {x : Pt n} {k : ℝ} (hk : k ≠ 0)
    (hx : linner x x = -k) (v : Pt n) :
    proju x (proju x v k) k = proju x v k := by
  rw [proju_def x (proju x v k) k, proju_tangent hk hx v, zero_div,
    zero_smul, add_zero]

theorem origin_add {n : ℕ} (k : ℝ) (y : Pt n) :
    origin n k + y = ((Real.sqrt k + y.1, y.2) : Pt n) := by
  unfold origin
  refine Prod.ext_iff.mpr ⟨?_, ?_⟩
  · simp
  · simp

theorem add_origin {n : ℕ} (k : ℝ) (x : Pt n) :
    x + origin n k = ((x.1 + Real.sqrt k, x.2) : Pt n) := by
  unfold origin
  refine Prod.ext_iff.mpr ⟨?_, ?_⟩
  · simp
  · simp

/-- The origin-anchored transport agrees with general transport from the
origin. -/
theorem transp0_eq_transp {n : ℕ} (y v : Pt n) (k : ℝ) :
    transp0 y v k = transp (origin n k) y v k := by
  unfold transp transp0
  rw [linner_origin_left, origin_add, sub_neg_eq_add]

/-- The origin-anchored backward transport agrees with general transport
to the origin. -/
theorem transp0back_eq_transp {n : ℕ} (x v : Pt n) (k : ℝ) :
    transp0back x v k = transp x (origin n k) v k := by
  unfold transp transp0back
  rw [linner_origin_left, linner_origin_right, add_origin, sub_neg_eq_add,
    neg_div, neg_smul, ← sub_eq_add_neg, mul_comm x.1 (Real.sqrt k)]

/-- The origin-anchored inner product pairs its argument with the origin
point. -/
theorem inner0_eq_linner {n : ℕ} (v : Pt n) (k : ℝ) :
    inner0 v k = linner v (origin n k) := by
  rw [linner_origin_right]
  unfold inner0
  ring

/-- The origin-anchored exponential map agrees with the general
exponential map based at the origin. -/
theorem expmap0_eq_expmap {n : ℕ} (u : Pt n) (k : ℝ) :
    expmap0 u k = expmap (origin n k) u k := by
  unfold expmap0 expmap origin
  refine Prod.ext_iff.mpr ⟨?_, ?_⟩
  · simp only [Prod.fst_add, Prod.smul_fst, smul_eq_mul]
    ring
  · simp only [Prod.snd_add, Prod.smul_snd, smul_zero, zero_add]

theorem sqrt_mul_div {k : ℝ} (hk : 0 < k) (a : ℝ) :
    Real.sqrt k * a / k = a / Real.sqrt k := by
  have hs0 : 0 < Real.sqrt k := Real.sqrt_pos.mpr hk
  rw [div_eq_div_iff (ne_of_gt hk) (ne_of_gt hs0)]
  linear_combination a * Real.mul_self_sqrt hk.le

/-- The origin-anchored distance agrees with the general distance from
the origin. -/
theorem dist0_eq_dist {n : ℕ} {k : ℝ} (hk : 0 < k) (y : Pt n) :
    dist0 y k = dist (origin n k) y k := by
  unfold dist dist0
  rw [linner_origin_left, neg_neg, sqrt_mul_div hk]

/-- The origin-anchored logarithmic map agrees with the general
logarithmic map based at the origin. -/
theorem logmap0_eq_logmap {n : ℕ} {k : ℝ} (hk : 0 < k) (y : Pt n) :
    logmap0 y k = logmap (origin n k) y k := by
  have hs0 : 0 < Real.sqrt k := Real.sqrt_pos.mpr hk
  have hkne : k ≠ 0 := ne_of_gt hk
  have hw : y + (linner (origin n k) y / k) • origin n k = ((0, y.2) : Pt n) := by
    rw [linner_origin_left]
    unfold origin
    refine Prod.ext_iff.mpr ⟨?_, ?_⟩
    · simp only [Prod.fst_add, Prod.smul_fst, smul_eq_mul]
      have hy1 : Real.sqrt k * y.1 / k * Real.sqrt k = y.1 := by
        rw [div_mul_eq_mul_div, div_eq_iff hkne]
        linear_combination y.1 * Real.mul_self_sqrt hk.le
      rw [neg_div, neg_mul, hy1, add_neg_cancel]
    · simp only [Prod.snd_add, Prod.smul_snd, smul_zero, add_zero]
  have hlw : lnorm ((0, y.2) : Pt n) = Real.sqrt (sdot y.2 y.2) := by
    rw [lnorm_eq_sqrt, linner_pair]
    norm_num
  unfold logmap
  rw [hw, hlw, ← dist0_eq_dist hk]
  unfold logmap0 dist0
  refine Prod.ext_iff.mpr ⟨?_, ?_⟩
  · simp
  · rfl

/-- The origin-anchored backward logarithmic map agrees with the general
logarithmic map toward the origin. -/
theorem logmap0back_eq_logmap {n : ℕ} {k : ℝ} (hk : 0 < k) (x : Pt n) :
    logmap0back x k = logmap x (origin n k) k := by
  have hs0 : 0 < Real.sqrt k := Real.sqrt_pos.mpr hk
  have hkne : k ≠ 0 := ne_of_gt hk
  have hc : linner x (origin n k) / k = -(x.1 / Real.sqrt k) := by
    rw [linner_origin_right, neg_div, mul_comm, sqrt_mul_div hk]
  have hw : origin n k + (linner x (origin n k) / k) • x =
      ((Real.sqrt k - x.1 * x.1 / Real.sqrt k, -(x.1 / Real.sqrt k) • x.2) : Pt n) := by
    rw [hc]
    unfold origin
    refine Prod.ext_iff.mpr ⟨?_, ?_⟩
    · simp only [Prod.fst_add, Prod.smul_fst, smul_eq_mul]
      field_simp
      ring
    · simp only [Prod.snd_add, Prod.smul_snd, zero_add]
  have hdist : dist x (origin n k) k = dist0 x k := by
    unfold dist dist0
    rw [linner_origin_right, neg_neg, mul_comm x.1 (Real.sqrt k),
      sqrt_mul_div hk]
  unfold logmap logmap0back
  rw [hw, hdist]

/-- The tangent norm of the origin-anchored logarithm equals the
origin-anchored distance. -/
theorem lnorm_logmap0 {n : ℕ} {k : ℝ} {x : Pt n} (hk : 0 < k)
    (hx : onManifold x k) : lnorm (logmap0 x k) = dist0 x k := by
  have hs0 : 0 < Real.sqrt k := Real.sqrt_pos.mpr hk
  have harg : 1 ≤ x.1 / Real.sqrt k := by
    rw [le_div_iff hs0]
    simpa using onManifold_time_ge hk hx
  have harc : 0 ≤ arcosh (x.1 / Real.sqrt k) := arcosh_nonneg harg
  rcases eq_or_lt_of_le (sdot_nonneg x.2) with hA0 | hA0
  · have hx2 : x.2 = 0 := sdot_self_eq_zero hA0.symm
    have hx1 : x.1 = Real.sqrt k := by
      have h1 : x.1 ^ 2 = k := by
        have h2 := onManifold_time_sq hx
        rw [← hA0] at h2
        linarith
      rw [← Real.sqrt_sq hx.2.le, h1]
    unfold logmap0 dist0
    rw [hx2, smul_zero, hx1, div_self (ne_of_gt hs0), arcosh_one, mul_zero]
    exact lnorm_zero
  · have hsA : 0 < Real.sqrt (sdot x.2 x.2) := Real.sqrt_pos.mpr hA0
    have hc0 : 0 ≤ Real.sqrt k * arcosh (x.1 / Real.sqrt k) /
        Real.sqrt (sdot x.2 x.2) :=
      div_nonneg (mul_nonneg hs0.le harc) hsA.le
    have hlin : linner (logmap0 x k) (logmap0 x k) =
        Real.sqrt k * arcosh (x.1 / Real.sqrt k) / Real.sqrt (sdot x.2 x.2) *
          (Real.sqrt k * arcosh (x.1 / Real.sqrt k) / Real.sqrt (sdot x.2 x.2)) *
          sdot x.2 x.2 := by
      unfold logmap0
      rw [linner_pair, sdot_smul_left, sdot_smul_right]
      ring
    have hln : lnorm (logmap0 x k) =
        Real.sqrt k * arcosh (x.1 / Real.sqrt k) / Real.sqrt (sdot x.2 x.2) *
          Real.sqrt (sdot x.2 x.2) := by
      rw [lnorm_eq_sqrt, hlin, Real.sqrt_mul (mul_nonneg hc0 hc0),
        Real.sqrt_mul_self hc0]
    rw [hln, div_mul_cancel₀ _ (ne_of_gt hsA)]
    rfl

/-- Round trip between the Lorentz and Poincare coordinate charts. -/
theorem poincare_lorentz_round_trip {n : ℕ} {x : Pt n} {k : ℝ} (hk : 0 < k)
    (hx : onManifold x k) :
    poincare_to_lorentz (lorentz_to_poincare x k) k = x := by
  have hs0 : 0 < Real.sqrt k := Real.sqrt_pos.mpr hk
  have hkne : k ≠ 0 := ne_of_gt hk
  have hss : Real.sqrt k * Real.sqrt k = k := Real.mul_self_sqrt hk.le
  have hxsq : x.1 ^ 2 = k + sdot x.2 x.2 := onManifold_time_sq hx
  have hx1 : Real.sqrt k ≤ x.1 := onManifold_time_ge hk hx
  have hden : 0 < x.1 + Real.sqrt k := by linarith
  have hdenne : x.1 + Real.sqrt k ≠ 0 := ne_of_gt hden
  have hA : sdot x.2 x.2 = x.1 ^ 2 - k := by linarith
  have hpp : sdot (lorentz_to_poincare x k) (lorentz_to_poincare x k) =
      k * (x.1 - Real.sqrt k) / (x.1 + Real.sqrt k) := by
    unfold lorentz_to_poincare
    rw [sdot_smul_left, sdot_smul_right, hA]
    field_simp
    linear_combination ((x.1 + Real.sqrt k) * x.1 ^ 2) * hss
  have hkm : k - sdot (lorentz_to_poincare x k) (lorentz_to_poincare x k) =
      2 * k * Real.sqrt k / (x.1 + Real.sqrt k) := by
    rw [hpp]
    field_simp
    ring
  have hkp : k + sdot (lorentz_to_poincare x k) (lorentz_to_poincare x k) =
      2 * k * x.1 / (x.1 + Real.sqrt k) := by
    rw [hpp]
    field_simp
    ring
  have h2ks : 2 * k * Real.sqrt k ≠ 0 := by positivity
  unfold poincare_to_lorentz
  refine Prod.ext_iff.mpr ⟨?_, ?_⟩
  · show Real.sqrt k *
        (k + sdot (lorentz_to_poincare x k) (lorentz_to_poincare x k)) /
        (k - sdot (lorentz_to_poincare x k) (lorentz_to_poincare x k)) = x.1
    rw [hkp, hkm]
    field_simp
    ring
  · show (2 * k /
        (k - sdot (lorentz_to_poincare x k) (lorentz_to_poincare x k))) •
        lorentz_to_poincare x k = x.2
    rw [hkm]
    have hunf : lorentz_to_poincare x k =
        (Real.sqrt k / (x.1 + Real.sqrt k)) • x.2 := rfl
    rw [hunf, smul_smul]
    have hcoef : 2 * k / (2 * k * Real.sqrt k / (x.1 + Real.sqrt k)) *
        (Real.sqrt k / (x.1 + Real.sqrt k)) = 1 := by
      rw [div_div_eq_mul_div]
      field_simp
      ring
    rw [hcoef, one_smul]

/-- Concrete sample point of the k = 1 hyperboloid with one spatial
dimension, used to instantiate the theorems below. -/
def wpt : Pt 1 := (1, 0)

/-- Concrete sample tangent vector at wpt. -/
def wtan : Pt 1 := (0, fun _ => 1)

theorem wpt_onManifold : onManifold wpt (1 : ℝ) := by
  constructor
  · rw [show wpt = ((1 : ℝ), (0 : Fin 1 → ℝ)) from rfl, linner_pair,
      sdot_zero_left]
    norm_num
  · norm_num [wpt]

theorem wpt_wtan_tangent : linner wpt wtan = 0 := by
  rw [show wpt = ((1 : ℝ), (0 : Fin 1 → ℝ)) from rfl,
    show wtan = ((0 : ℝ), (fun _ => (1 : ℝ) : Fin 1 → ℝ)) from rfl,
    linner_pair, sdot_zero_left]
  norm_num

theorem wtan_unit : linner wtan wtan = 1 := by
  rw [show wtan = ((0 : ℝ), (fun _ => (1 : ℝ) : Fin 1 → ℝ)) from rfl,
    linner_pair]
  unfold sdot
  simp

theorem origin_one : origin 1 (1 : ℝ) = wpt := by
  unfold origin wpt
  rw [Real.sqrt_one]

/-- C1: parallel transport on the Lorentz manifold preserves the
Riemannian inner product: for on-manifold points x and y and tangent
vectors u, v at x, the transported vectors have the same Minkowski inner
product as u and v, and likewise the origin-anchored transp0 preserves
inner products of tangent vectors at the origin. -/
theorem C1_transp_preserves_inner {n : ℕ} {x y u v p q : Pt n} {k : ℝ}
    (hk : 0 < k) (hx : onManifold x k) (hy : onManifold y k)
    (hu : linner x u = 0) (hv : linner x v = 0)
    (hp : linner (origin n k) p = 0) (hq : linner (origin n k) q = 0) :
    linner (transp x y u k) (transp x y v k) = linner u v ∧
    linner (transp0 y p k) (transp0 y q k) = linner p q := by
  have ho := @origin_onManifold n k hk
  constructor
  · exact transp_preserves_inner hx.1 hy.1
      (ne_of_gt (transp_denom_pos hk hx hy)) hu hv
  · rw [transp0_eq_transp, transp0_eq_transp]
    exact transp_preserves_inner ho.1 hy.1
      (ne_of_gt (transp_denom_pos hk ho hy)) hp hq

/-- Witness for C1 at a concrete point, tangent vector, and curvature. -/
theorem C1_witness :
    linner (transp wpt wpt wtan 1) (transp wpt wpt wtan 1) =
      linner wtan wtan ∧
    linner (transp0 wpt wtan 1) (transp0 wpt wtan 1) = linner wtan wtan :=
  C1_transp_preserves_inner one_pos wpt_onManifold wpt_onManifold
    wpt_wtan_tangent wpt_wtan_tangent
    (by rw [origin_one]; exact wpt_wtan_tangent)
    (by rw [origin_one]; exact wpt_wtan_tangent)

/-- C2: expmap and logmap are mutually inverse: expmap at x of the
logarithm of y returns y for all on-manifold x and y, and logmap at x of
the exponential of a tangent vector v returns v. -/
theorem C2_expmap_logmap_inverse {n : ℕ} {x y v : Pt n} {k : ℝ}
    (hk : 0 < k) (hx : onManifold x k) (hy : onManifold y k)
    (hv : linner x v = 0) :
    expmap x (logmap x y k) k = y ∧ logmap x (expmap x v k) k = v :=
  ⟨expmap_logmap hk hx hy, logmap_expmap hk hx hv⟩

/-- Witness for C2 at a concrete point, tangent vector, and curvature. -/
theorem C2_witness :
    expmap wpt (logmap wpt wpt 1) 1 = wpt ∧
    logmap wpt (expmap wpt wtan 1) 1 = wtan :=
  C2_expmap_logmap_inverse one_pos wpt_onManifold wpt_onManifold
    wpt_wtan_tangent

/-- C3: geodesic_unit is unit speed: for an on-manifold point x, a
unit-norm tangent direction u and arc-length parameter t greater or equal
zero, the distance from the starting point of the geodesic to its value
at t equals t. -/
theorem C3_geodesic_unit_speed {n : ℕ} {x u : Pt n} {k t : ℝ} (hk : 0 < k)
    (hx : onManifold x k) (hu : linner x u = 0) (hunit : linner u u = 1)
    (ht : 0 ≤ t) :
    dist (geodesic_unit 0 x u k) (geodesic_unit t x u k) k = t := by
  rw [geodesic_unit_zero]
  exact dist_geodesic_unit hk hx hu ht

/-- Witness for C3 at a concrete point, unit direction, and parameter. -/
theorem C3_witness :
    dist (geodesic_unit 0 wpt wtan 1) (geodesic_unit 1 wpt wtan 1) 1 = 1 :=
  C3_geodesic_unit_speed one_pos wpt_onManifold wpt_wtan_tangent wtan_unit
    zero_le_one

/-- C4: the chart conversion to the Poincare ball followed by the
conversion back to the Lorentz model is the identity on the hyperboloid
at fixed curvature. -/
theorem C4_lorentz_poincare_round_trip {n : ℕ} {x : Pt n} {k : ℝ}
    (hk : 0 < k) (hx : onManifold x k) :
    poincare_to_lorentz (lorentz_to_poincare x k) k = x :=
  poincare_lorentz_round_trip hk hx

/-- Witness for C4 at a concrete point and curvature. -/
theorem C4_witness :
    poincare_to_lorentz (lorentz_to_poincare wpt 1) 1 = wpt :=
  C4_lorentz_poincare_round_trip one_pos wpt_onManifold

/-- C5 counterexample: at curvature parameter 4 the projected point has
Lorentz self-inner product -4, not -(1/4), so the invariant does not take
the stated form -1/k. -/
theorem C5_counterexample :
    linner (project ((0 : ℝ), (0 : Fin 1 → ℝ)) 4)
      (project ((0 : ℝ), (0 : Fin 1 → ℝ)) 4) ≠ -(1 / 4 : ℝ) := by
  have h := (project_onManifold (show (0 : ℝ) < 4 by norm_num)
    (((0 : ℝ), (0 : Fin 1 → ℝ)) : Pt 1)).1
  rw [h]
  norm_num

/-- C5 (amended): every point returned by project satisfies the
hyperboloid invariant in its curvature-scaled form, Lorentz self-inner
product -k, with positive time coordinate. -/
theorem C5_project_on_manifold {n : ℕ} {k : ℝ} (hk : 0 < k) (a : Pt n) :
    linner (project a k) (project a k) = -k ∧ 0 < (project a k).1 :=
  project_onManifold hk a

/-- Witness for C5 at a concrete ambient input and curvature. -/
theorem C5_witness :
    linner (project (((2 : ℝ), fun _ => (3 : ℝ)) : Pt 1) 1)
      (project (((2 : ℝ), fun _ => (3 : ℝ)) : Pt 1) 1) = -1 ∧
    0 < (project (((2 : ℝ), fun _ => (3 : ℝ)) : Pt 1) 1).1 :=
  C5_project_on_manifold one_pos (((2 : ℝ), fun _ => (3 : ℝ)) : Pt 1)

/-- C6: proju is idempotent and its output satisfies the tangent
invariant, vanishing Minkowski inner product with the base point. -/
theorem C6_proju_idempotent_tangent {n : ℕ} {x : Pt n} {k : ℝ}
    (hk : 0 < k) (hx : onManifold x k) (v : Pt n) :
    proju x (proju x v k) k = proju x v k ∧ linner x (proju x v k) = 0 :=
  ⟨proju_idem (ne_of_gt hk) hx.1 v, proju_tangent (ne_of_gt hk) hx.1 v⟩

/-- Witness for C6 at a concrete point, ambient vector, and curvature. -/
theorem C6_witness :
    proju wpt (proju wpt wtan 1) 1 = proju wpt wtan 1 ∧
    linner wpt (proju wpt wtan 1) = 0 :=
  C6_proju_idempotent_tangent one_pos wpt_onManifold wtan

/-- C7: the origin specializations expmap0 and logmap0 agree with the
general expmap and logmap evaluated at the canonical origin; in
particular expmap0 inverts logmap0 on the manifold and the tangent norm
of logmap0 equals dist0. -/
theorem C7_origin_specializations {n : ℕ} {x v : Pt n} {k : ℝ}
    (hk : 0 < k) (hx : onManifold x k) :
    expmap0 v k = expmap (origin n k) v k ∧
    logmap0 x k = logmap (origin n k) x k ∧
    expmap0 (logmap0 x k) k = x ∧
    lnorm (logmap0 x k) = dist0 x k := by
  refine ⟨expmap0_eq_expmap v k, logmap0_eq_logmap hk x, ?_,
    lnorm_logmap0 hk hx⟩
  rw [expmap0_eq_expmap, logmap0_eq_logmap hk]
  exact expmap_logmap hk (origin_onManifold hk) hx

/-- Witness for C7 at a concrete point, tangent vector, and curvature. -/
theorem C7_witness :
    expmap0 wtan 1 = expmap (origin 1 1) wtan 1 ∧
    logmap0 wpt 1 = logmap (origin 1 1) wpt 1 ∧
    expmap0 (logmap0 wpt 1) 1 = wpt ∧
    lnorm (logmap0 wpt 1) = dist0 wpt 1 :=
  C7_origin_specializations one_pos wpt_onManifold

/-- C8: the singular configurations have exact limiting values: expmap
of the zero tangent vector returns the base point, and logmap of a point
with itself returns the zero vector. -/
theorem C8_singular_limits {n : ℕ} {x : Pt n} {k : ℝ} (hk : 0 < k)
    (hx : onManifold x k) :
    expmap x 0 k = x ∧ logmap x x k = 0 :=
  ⟨expmap_zero x k, logmap_self (ne_of_gt hk) hx.1⟩

/-- Witness for C8 at a concrete point and curvature. -/
theorem C8_witness : expmap wpt 0 1 = wpt ∧ logmap wpt wpt 1 = 0 :=
  C8_singular_limits one_pos wpt_onManifold

/-- C9: transporting through the origin with the specialized maps agrees
with the chained general transport between the same endpoints. -/
theorem C9_transport_through_origin {n : ℕ} {a b v : Pt n} {k : ℝ}
    (hk : 0 < k) (ha : onManifold a k) (hb : onManifold b k)
    (hv : linner a v = 0) :
    transp0 b (transp0back a v k) k =
      transp (origin n k) b (transp a (origin n k) v k) k := by
  rw [transp0_eq_transp, transp0back_eq_transp]

/-- Witness for C9 at a concrete pair of points and tangent vector. -/
theorem C9_witness :
    transp0 wpt (transp0back wpt wtan 1) 1 =
      transp (origin 1 1) wpt (transp wpt (origin 1 1) wtan 1) 1 :=
  C9_transport_through_origin one_pos wpt_onManifold wpt_onManifold
    wpt_wtan_tangent

/-- C10: the undocumented origin-anchored specializations agree with the
general operations against the canonical origin point: logmap0back equals
logmap toward the origin and inner0 pairs its single argument with the
origin point. -/
theorem C10_zero_point_ops {n : ℕ} {x : Pt n} {k : ℝ} (hk : 0 < k)
    (hx : onManifold x k) :
    logmap0back x k = logmap x (origin n k) k ∧
    inner0 x k = linner x (origin n k) :=
  ⟨logmap0back_eq_logmap hk x, inner0_eq_linner x k⟩

/-- Witness for C10 at a concrete point and curvature. -/
theorem C10_witness :
    logmap0back wpt 1 = logmap wpt (origin 1 1) 1 ∧
    inner0 wpt 1 = linner wpt (origin 1 1) :=
  C10_zero_point_ops one_pos wpt_onManifold

end

end LorentzMath
